import Mathlib

/- Verification of lpar/bloat (main.go), a disk-usage aggregation tool.
   Go strings are modelled as lists of characters (GoString); the Go
   int64 byte counts are modelled as Int (no claim exercises overflow).
   The Go map from strings to DirInfo pointers is modelled as an
   association list with unique keys; mutating the record behind a
   pointer becomes in-place replacement of the stored record. -/

abbrev GoString := List Char

/-- DirInfo stores the amount of file bloat under a single directory
(struct DirInfo, main.go lines 13-16). -/
structure DirInfo where
  Path : GoString
  Bytes : Int
deriving DecidableEq

/-- Bloat stores the amount of bloat found (struct Bloat, main.go
lines 19-23). -/
structure Bloat where
  DirMap : List (GoString × DirInfo)
  Dirs : List DirInfo
  Abs : Bool
deriving DecidableEq

/-- Association-list lookup modelling the Go map read b.DirMap[dir]. -/
def findDir : List (GoString × DirInfo) → GoString → Option DirInfo
  | [], _ => none
  | e :: t, d => if e.1 = d then some e.2 else findDir t d

/-- Association-list replacement modelling the Go in-place pointer
update of the record stored under a key. -/
def updateAssoc : List (GoString × DirInfo) → GoString → DirInfo → List (GoString × DirInfo)
  | [], _, _ => []
  | e :: t, d, v => if e.1 = d then (d, v) :: t else e :: updateAssoc t d v

/-- NewBloat returns a fresh accumulator (NewBloat, main.go lines 26-28). -/
def NewBloat (absmode : Bool) : Bloat :=
  { DirMap := [], Dirs := [], Abs := absmode }

/-- AddBloat adds the specified number of bytes of bloat to the total for
the specified directory, adding new map entries as necessary
(AddBloat, main.go lines 42-50). -/
def AddBloat (b : Bloat) (dir : GoString) (bytes : Int) : Bloat :=
  match findDir b.DirMap dir with
  | none => { b with DirMap := b.DirMap ++ [(dir, { Path := dir, Bytes := bytes })] }
  | some info =>
      { b with DirMap := updateAssoc b.DirMap dir { Path := info.Path, Bytes := info.Bytes + bytes } }

/-- Modelled from the spec: helper for the parent-directory function.
The Go standard library function filepath.Dir used by AddFile is outside
this repository; the spec describes it as the parent-chain step with
fixed points at a filesystem root ("/") and at the relative root (".").
dropLeaf removes, from the reversed path, the final component (the
maximal trailing run of non-separator characters). -/
def dropLeaf : GoString → GoString
  | [] => []
  | c :: t => if c = '/' then c :: t else dropLeaf t

/-- Modelled from the spec: the parent-directory function (the role
filepath.Dir plays on Unix paths). Everything after the last separator
is discarded; a path with no separator has parent "."; when the last
separator is the leading character the parent is "/". The fixed points
are exactly "/" and ".", matching the spec glossary entry Fixed point. -/
def Dir (s : GoString) : GoString :=
  match dropLeaf s.reverse with
  | [] => ['.']
  | _ :: t => if t = [] then ['/'] else t.reverse

/-- Termination measure for the parent-chain walk: the fixed point "."
is smallest, every other path is measured by its length. -/
def pmeasure (s : GoString) : Nat :=
  if s = ['.'] then 0 else s.length + 1

theorem dropLeaf_of_not_mem (l : GoString) (h : '/' ∉ l) : dropLeaf l = [] := by
  induction l with
  | nil => rfl
  | cons c t ih =>
      have hc : ¬ c = '/' := fun hc => h (by simp [hc])
      simp only [dropLeaf, if_neg hc]
      exact ih (fun ht => h (List.mem_cons_of_mem _ ht))

theorem dropLeaf_append (w l : GoString) (h : '/' ∉ w) : dropLeaf (w ++ l) = dropLeaf l := by
  induction w with
  | nil => rfl
  | cons c t ih =>
      have hc : ¬ c = '/' := fun hc => h (by simp [hc])
      simp only [List.cons_append, dropLeaf, if_neg hc]
      exact ih (fun ht => h (List.mem_cons_of_mem _ ht))

theorem dropLeaf_sep (t : GoString) : dropLeaf ('/' :: t) = '/' :: t := by
  simp [dropLeaf]

theorem Dir_no_sep {s : GoString} (h : '/' ∉ s) : Dir s = ['.'] := by
  have hr : '/' ∉ s.reverse := by simpa using h
  simp [Dir, dropLeaf_of_not_mem _ hr]

theorem Dir_splitLast (u v : GoString) (hv : '/' ∉ v) :
    Dir (u ++ '/' :: v) = if u = [] then ['/'] else u := by
  have hvr : '/' ∉ v.reverse := by simpa using hv
  have h1 : (u ++ '/' :: v).reverse = v.reverse ++ '/' :: u.reverse := by
    simp
  rw [Dir, h1, dropLeaf_append _ _ hvr, dropLeaf_sep]
  by_cases hu : u = []
  · subst hu; simp
  · have hur : u.reverse ≠ [] := by simpa using hu
    simp [hu, hur]

theorem exists_splitLast {p : GoString} (h : '/' ∈ p) :
    ∃ u v, p = u ++ '/' :: v ∧ '/' ∉ v := by
  induction p with
  | nil => cases h
  | cons c t ih =>
      by_cases ht : '/' ∈ t
      · obtain ⟨u, v, huv, hv⟩ := ih ht
        exact ⟨c :: u, v, by rw [List.cons_append, huv], hv⟩
      · have hc : c = '/' := by
          rcases List.mem_cons.mp h with h1 | h1
          · exact h1.symm
          · exact absurd h1 ht
        exact ⟨[], t, by rw [hc, List.nil_append], ht⟩

theorem dir_pmeasure_lt {s : GoString} (h : Dir s ≠ s) : pmeasure (Dir s) < pmeasure s := by
  by_cases hs : '/' ∈ s
  · obtain ⟨u, v, rfl, hv⟩ := exists_splitLast hs
    have hne : u ++ '/' :: v ≠ ['.'] := by
      intro he
      have : '/' ∈ (['.'] : GoString) := he ▸ hs
      simp at this
    rw [Dir_splitLast u v hv] at h ⊢
    by_cases hu : u = []
    · subst hu
      rw [if_pos rfl] at h ⊢
      have hvne : v ≠ [] := by
        intro hv0; subst hv0; exact h rfl
      have hvlen : 1 ≤ v.length := by
        cases v with
        | nil => exact absurd rfl hvne
        | cons a t => simp
      simp only [pmeasure, List.nil_append]
      have h2 : ('/' :: v : GoString) ≠ ['.'] := hne
      rw [if_neg (by simp), if_neg h2]
      simp
      omega
    · rw [if_neg hu] at h ⊢
      simp only [pmeasure]
      rw [if_neg hne]
      by_cases hud : u = ['.']
      · rw [if_pos hud]; omega
      · rw [if_neg hud]
        have : u.length + 1 + v.length = (u ++ '/' :: v).length := by simp; omega
        omega
  · rw [Dir_no_sep hs] at h ⊢
    have hs1 : s ≠ ['.'] := fun he => h he.symm
    simp [pmeasure, hs1]

/-- Modelled from the spec: the body of the AddFile parent-chain loop
(AddFile, main.go lines 54-65). Each iteration computes the parent of
the current directory; the sole termination condition is that the
parent equals the current directory, and otherwise the parent receives
one AddBloat contribution and the walk continues from it. -/
def addFileLoop (b : Bloat) (bytes : Int) (ldir : GoString) : Bloat :=
  if h : Dir ldir = ldir then b
  else addFileLoop (AddBloat b (Dir ldir) bytes) bytes (Dir ldir)
termination_by pmeasure ldir
decreasing_by exact dir_pmeasure_lt h

/-- AddFile adds the bloat from a single file to the total for the file
directory and all parent directories of that directory (AddFile,
main.go lines 54-65). -/
def AddFile (b : Bloat) (path : GoString) (bytes : Int) : Bloat :=
  addFileLoop b bytes path

/-- The list of directories that receive a contribution during one call
of AddFile, in loop order: the iterated parents of the path, stopping
at the fixed point (which is itself the last element when the walk
moves at all). -/
def ancestorChain (ldir : GoString) : List GoString :=
  if Dir ldir = ldir then []
  else Dir ldir :: ancestorChain (Dir ldir)
termination_by pmeasure ldir
decreasing_by exact dir_pmeasure_lt (by assumption)

/-- Insertion step of the descending sort by Bytes, modelling the
comparator passed to sort.Slice in main.go line 37 (x before y when
x.Bytes > y.Bytes). -/
def insertDesc (x : DirInfo) : List DirInfo → List DirInfo
  | [] => [x]
  | y :: t => if y.Bytes < x.Bytes then x :: y :: t else y :: insertDesc x t

/-- Descending comparison sort by Bytes, modelling sort.Slice. -/
def sortDescBy : List DirInfo → List DirInfo
  | [] => []
  | x :: t => insertDesc x (sortDescBy t)

/-- Sort collects the DirMap values into the Dirs slice, biggest
directories at the top (Sort, main.go lines 32-38). Go map iteration
order is arbitrary; the model collects the association list in its
stored order before sorting. -/
def sortBloat (b : Bloat) : Bloat :=
  { b with Dirs := sortDescBy (b.DirMap.map Prod.snd) }

/-- Accumulated total for a key, with 0 for an absent key. -/
def totalBytes (b : Bloat) (k : GoString) : Int :=
  match findDir b.DirMap k with
  | some i => i.Bytes
  | none => 0

/-- Outcome of the external absolute/relative path resolution for one
visited entry: the resolved directory key, or an error detail. -/
inductive ResolveResult where
  | ok : GoString → ResolveResult
  | error : GoString → ResolveResult
deriving DecidableEq

/-- Modelled from the spec: one filesystem entry handed to the Walk
callback by the external traversal primitive. The size is the size the
traversal reports for the entry (directories are visited too and carry
their own reported size); resolved is the outcome of the external
absolute/relative path normalization for the entry. -/
structure WalkEntry where
  path : GoString
  size : Int
  isDir : Bool
  resolved : ResolveResult
deriving DecidableEq

/-- Modelled from the spec: one step of the external traversal, either a
successfully visited entry or a traversal error (the callback is then
invoked with a non-nil error, returns it, and the walk stops). -/
inductive WalkStep where
  | entry : WalkEntry → WalkStep
  | failure : GoString → WalkStep
deriving DecidableEq

/-- Structural model of the two stderr message formats of main.go:
cantProcess models the line printed at main.go line 82 before the
panic, errorScanning models the line printed at main.go line 89. -/
inductive ErrMsg where
  | cantProcess : GoString → GoString → ErrMsg
  | errorScanning : GoString → GoString → ErrMsg
deriving DecidableEq

/-- Outcome of scanning one root: either the process panicked (abnormal
termination, main.go line 83), or the scan finished with the resulting
accumulator; both carry the stderr lines emitted so far. -/
inductive ScanOutcome where
  | panicked : List ErrMsg → ScanOutcome
  | done : Bloat → List ErrMsg → ScanOutcome
deriving DecidableEq

/-- Scan body (Scan, main.go lines 68-91) over the modelled traversal:
each successfully visited entry has its reported size added via AddFile
under its resolved key, whatever kind of entry it is; a failed path
resolution prints a message and panics; a traversal error stops the
walk and Scan prints the error-scanning message naming the root. -/
def scanGo (b : Bloat) (basedir : GoString) (steps : List WalkStep) (errs : List ErrMsg) :
    ScanOutcome :=
  match steps with
  | [] => ScanOutcome.done b errs
  | WalkStep.failure m :: _ => ScanOutcome.done b (errs ++ [ErrMsg.errorScanning basedir m])
  | WalkStep.entry e :: rest =>
      match e.resolved with
      | ResolveResult.error m => ScanOutcome.panicked (errs ++ [ErrMsg.cantProcess e.path m])
      | ResolveResult.ok fdir => scanGo (AddFile b fdir e.size) basedir rest errs

/-- Scan with an empty stderr prefix. -/
def Scan (b : Bloat) (basedir : GoString) (steps : List WalkStep) : ScanOutcome :=
  scanGo b basedir steps []

/-- The accumulator state after the successfully visited entries of a
step list (used to state what a partially completed walk accumulated). -/
def scanOkEntries (b : Bloat) (steps : List WalkStep) : Bloat :=
  steps.foldl
    (fun a s =>
      match s with
      | WalkStep.entry e =>
          match e.resolved with
          | ResolveResult.ok fdir => AddFile a fdir e.size
          | ResolveResult.error _ => a
      | WalkStep.failure _ => a)
    b

/-- A step list is walk-safe when no entry with a failed path resolution
is reached before the walk ends (either it runs out of steps or hits a
traversal error first). -/
def stepsSafe : List WalkStep → Bool
  | [] => true
  | WalkStep.failure _ :: _ => true
  | WalkStep.entry e :: rest =>
      match e.resolved with
      | ResolveResult.error _ => false
      | ResolveResult.ok _ => stepsSafe rest

/-- A step that is a successfully resolved entry. -/
def okEntryStep : WalkStep → Bool
  | WalkStep.entry e =>
      match e.resolved with
      | ResolveResult.ok _ => true
      | ResolveResult.error _ => false
  | WalkStep.failure _ => false

/-- Outcome of a whole invocation: abnormal termination, or the ranked
report (the sorted Dirs slice) together with the stderr lines. -/
inductive MainOutcome where
  | panicked : List ErrMsg → MainOutcome
  | report : List DirInfo → List ErrMsg → MainOutcome
deriving DecidableEq

/-- The root-argument loop of main (main.go lines 113-115): roots are
scanned in order into one shared accumulator; a panic aborts
everything, a traversal error only ends that root. -/
def runRoots (b : Bloat) (roots : List (GoString × List WalkStep)) (errs : List ErrMsg) :
    ScanOutcome :=
  match roots with
  | [] => ScanOutcome.done b errs
  | (root, steps) :: rest =>
      match scanGo b root steps errs with
      | ScanOutcome.panicked es => ScanOutcome.panicked es
      | ScanOutcome.done b2 es => runRoots b2 rest es

/-- The whole run (main, main.go lines 101-118): absolute mode is on
exactly when more than one root is given; after all roots, Sort is
called once and Report walks the sorted Dirs slice. -/
def mainGo (roots : List (GoString × List WalkStep)) : MainOutcome :=
  match runRoots (NewBloat (1 < roots.length)) roots [] with
  | ScanOutcome.panicked es => MainOutcome.panicked es
  | ScanOutcome.done b es => MainOutcome.report (sortBloat b).Dirs es

/-- First component of a path: the characters before the first
separator. -/
def firstComp : GoString → GoString
  | [] => []
  | c :: t => if c = '/' then [] else c :: firstComp t

/-- Modelled from the spec: a well-formed root-relative path as produced
by the external relative normalizer for an entry strictly below the
root: nonempty, not starting with a separator, and with a first
component other than ".". -/
def relOK (p : GoString) : Prop :=
  p ≠ [] ∧ p.head? ≠ some '/' ∧ firstComp p ≠ ['.']

instance (p : GoString) : Decidable (relOK p) := by
  unfold relOK; infer_instance

/-- A directory key of the relative-mode run: either the root key "."
or a well-formed relative path. -/
def goodKey (k : GoString) : Prop :=
  relOK k ∨ k = ['.']

instance (k : GoString) : Decidable (goodKey k) := by
  unfold goodKey; infer_instance

/-- Key correspondence between the relative-mode run and the
absolute-mode run of the same root R: "." corresponds to R itself and
every other relative key corresponds to R ++ "/" ++ key. -/
def phiKey (r k : GoString) : GoString :=
  if k = ['.'] then r else r ++ '/' :: k

/-- Modelled from the spec: relative-mode accumulation over the files of
one root, each file given by its root-relative path and size (Scan,
main.go line 79, with the external normalizer returning the relative
path). -/
def scanFilesRel (b : Bloat) (files : List (GoString × Int)) : Bloat :=
  files.foldl (fun a f => AddFile a f.1 f.2) b

/-- Modelled from the spec: absolute-mode accumulation over the same
files, each keyed by the absolute path root ++ "/" ++ relative path
(Scan, main.go line 77, with the external normalizer returning the
absolute path). -/
def scanFilesAbs (b : Bloat) (root : GoString) (files : List (GoString × Int)) : Bloat :=
  files.foldl (fun a f => AddFile a (root ++ '/' :: f.1) f.2) b

/-- Number of path components of a path, counted as one more than the
number of separators it contains. -/
def numComponents (p : GoString) : Nat :=
  p.count '/' + 1

/-- The number of loop steps AddFile performs on a path: the number of
iterations that make a contribution (the final iteration, which only
detects the fixed point and breaks, is the termination test). -/
def addFileSteps (p : GoString) : Nat :=
  (ancestorChain p).length

/-- The key invariant of the accumulator map: every stored record has
its Path field equal to the key it is stored under. -/
def MapInv (b : Bloat) : Prop :=
  ∀ e ∈ b.DirMap, e.2.Path = e.1

theorem ancestorChain_fix {p : GoString} (h : Dir p = p) : ancestorChain p = [] := by
  rw [ancestorChain, if_pos h]

theorem ancestorChain_ne {p : GoString} (h : Dir p ≠ p) :
    ancestorChain p = Dir p :: ancestorChain (Dir p) := by
  rw [ancestorChain, if_neg h]

theorem pmeasure_zero {p : GoString} (hp : pmeasure p ≤ 0) : p = ['.'] := by
  by_contra hne
  simp [pmeasure, hne] at hp

theorem chain_pmeasure_aux :
    ∀ n, ∀ p : GoString, pmeasure p ≤ n → ∀ d ∈ ancestorChain p, pmeasure d < pmeasure p := by
  intro n
  induction n with
  | zero =>
      intro p hp d hd
      rw [pmeasure_zero hp] at hd
      rw [ancestorChain_fix (by decide)] at hd
      cases hd
  | succ n ih =>
      intro p hp d hd
      by_cases h : Dir p = p
      · rw [ancestorChain_fix h] at hd; cases hd
      · rw [ancestorChain_ne h] at hd
        have hlt := dir_pmeasure_lt h
        rcases List.mem_cons.mp hd with h1 | h1
        · rw [h1]; exact hlt
        · exact lt_trans (ih (Dir p) (by omega) d h1) hlt

theorem chain_pmeasure {p d : GoString} (hd : d ∈ ancestorChain p) : pmeasure d < pmeasure p :=
  chain_pmeasure_aux (pmeasure p) p le_rfl d hd

theorem chain_nodup_aux : ∀ n, ∀ p : GoString, pmeasure p ≤ n → (ancestorChain p).Nodup := by
  intro n
  induction n with
  | zero =>
      intro p hp
      rw [pmeasure_zero hp, ancestorChain_fix (by decide)]
      exact List.nodup_nil
  | succ n ih =>
      intro p hp
      by_cases h : Dir p = p
      · rw [ancestorChain_fix h]; exact List.nodup_nil
      · rw [ancestorChain_ne h]
        have hlt := dir_pmeasure_lt h
        refine List.nodup_cons.mpr ⟨?_, ih (Dir p) (by omega)⟩
        intro hmem
        exact absurd (chain_pmeasure hmem) (lt_irrefl _)

theorem chain_nodup (p : GoString) : (ancestorChain p).Nodup :=
  chain_nodup_aux (pmeasure p) p le_rfl

theorem addFileLoop_fix {p : GoString} (h : Dir p = p) (b : Bloat) (bytes : Int) :
    addFileLoop b bytes p = b := by
  rw [addFileLoop, dif_pos h]

theorem addFileLoop_ne {p : GoString} (h : Dir p ≠ p) (b : Bloat) (bytes : Int) :
    addFileLoop b bytes p = addFileLoop (AddBloat b (Dir p) bytes) bytes (Dir p) := by
  rw [addFileLoop, dif_neg h]

theorem addFileLoop_eq_fold_aux :
    ∀ n, ∀ p : GoString, pmeasure p ≤ n → ∀ (b : Bloat) (s : Int),
      addFileLoop b s p = (ancestorChain p).foldl (fun a d => AddBloat a d s) b := by
  intro n
  induction n with
  | zero =>
      intro p hp b s
      rw [pmeasure_zero hp, addFileLoop_fix (by decide), ancestorChain_fix (by decide)]
      rfl
  | succ n ih =>
      intro p hp b s
      by_cases h : Dir p = p
      · rw [addFileLoop_fix h, ancestorChain_fix h]; rfl
      · have hlt := dir_pmeasure_lt h
        rw [addFileLoop_ne h, ancestorChain_ne h, List.foldl_cons]
        exact ih (Dir p) (by omega) _ s

theorem addFile_eq_fold (b : Bloat) (p : GoString) (s : Int) :
    AddFile b p s = (ancestorChain p).foldl (fun a d => AddBloat a d s) b :=
  addFileLoop_eq_fold_aux (pmeasure p) p le_rfl b s

theorem totalBytes_of_some {b : Bloat} {k : GoString} {i : DirInfo}
    (h : findDir b.DirMap k = some i) : totalBytes b k = i.Bytes := by
  unfold totalBytes; rw [h]

theorem totalBytes_of_none {b : Bloat} {k : GoString}
    (h : findDir b.DirMap k = none) : totalBytes b k = 0 := by
  unfold totalBytes; rw [h]

theorem findDir_append_of_none {m1 : List (GoString × DirInfo)} {k : GoString}
    (m2 : List (GoString × DirInfo)) (h : findDir m1 k = none) :
    findDir (m1 ++ m2) k = findDir m2 k := by
  induction m1 with
  | nil => rfl
  | cons e t ih =>
      by_cases he : e.1 = k
      · simp [findDir, he] at h
      · simp only [findDir, if_neg he] at h
        simpa only [List.cons_append, findDir, if_neg he] using ih h

theorem findDir_append_of_some {m1 : List (GoString × DirInfo)} {k : GoString} {i : DirInfo}
    (m2 : List (GoString × DirInfo)) (h : findDir m1 k = some i) :
    findDir (m1 ++ m2) k = some i := by
  induction m1 with
  | nil => simp [findDir] at h
  | cons e t ih =>
      by_cases he : e.1 = k
      · simp only [findDir, if_pos he] at h
        simp only [List.cons_append, findDir, if_pos he, h]
      · simp only [findDir, if_neg he] at h
        simpa only [List.cons_append, findDir, if_neg he] using ih h

theorem findDir_update_self {m : List (GoString × DirInfo)} {d : GoString} {i : DirInfo}
    (h : findDir m d = some i) (v : DirInfo) :
    findDir (updateAssoc m d v) d = some v := by
  induction m with
  | nil => simp [findDir] at h
  | cons e t ih =>
      by_cases he : e.1 = d
      · simp [updateAssoc, if_pos he, findDir]
      · simp only [findDir, if_neg he] at h
        simpa only [updateAssoc, if_neg he, findDir, if_neg he] using ih h

theorem findDir_update_other {m : List (GoString × DirInfo)} {d k : GoString} (v : DirInfo)
    (hk : k ≠ d) :
    findDir (updateAssoc m d v) k = findDir m k := by
  induction m with
  | nil => rfl
  | cons e t ih =>
      by_cases he : e.1 = d
      · have hdk : ¬ d = k := fun hh => hk hh.symm
        simp only [updateAssoc, if_pos he, findDir, if_neg hdk]
        have hek : ¬ e.1 = k := by rw [he]; exact hdk
        rw [if_neg hek]
      · simpa only [updateAssoc, if_neg he, findDir] using
          (by by_cases hek : e.1 = k
              · simp only [findDir, if_pos hek]
              · simp only [findDir, if_neg hek]; exact ih)

theorem AddBloat_DirMap_none {b : Bloat} {d : GoString} {s : Int}
    (h : findDir b.DirMap d = none) :
    (AddBloat b d s).DirMap = b.DirMap ++ [(d, { Path := d, Bytes := s })] := by
  unfold AddBloat; rw [h]

theorem AddBloat_DirMap_some {b : Bloat} {d : GoString} {s : Int} {i : DirInfo}
    (h : findDir b.DirMap d = some i) :
    (AddBloat b d s).DirMap = updateAssoc b.DirMap d { Path := i.Path, Bytes := i.Bytes + s } := by
  unfold AddBloat; rw [h]

theorem AddBloat_Dirs (b : Bloat) (d : GoString) (s : Int) : (AddBloat b d s).Dirs = b.Dirs := by
  unfold AddBloat
  cases findDir b.DirMap d <;> rfl

theorem AddBloat_Abs (b : Bloat) (d : GoString) (s : Int) : (AddBloat b d s).Abs = b.Abs := by
  unfold AddBloat
  cases findDir b.DirMap d <;> rfl

theorem totalBytes_AddBloat (b : Bloat) (d : GoString) (s : Int) (k : GoString) :
    totalBytes (AddBloat b d s) k = if k = d then totalBytes b k + s else totalBytes b k := by
  by_cases hk : k = d
  · subst hk
    rw [if_pos rfl]
    cases hfd : findDir b.DirMap k with
    | none =>
        have h1 : totalBytes (AddBloat b k s) k = s := by
          unfold totalBytes
          rw [AddBloat_DirMap_none hfd, findDir_append_of_none _ hfd]
          simp [findDir]
        rw [h1, totalBytes_of_none hfd]
        omega
    | some i =>
        have h1 : totalBytes (AddBloat b k s) k = i.Bytes + s := by
          unfold totalBytes
          rw [AddBloat_DirMap_some hfd, findDir_update_self hfd]
        rw [h1, totalBytes_of_some hfd]
  · rw [if_neg hk]
    cases hfd : findDir b.DirMap d with
    | none =>
        unfold totalBytes
        rw [AddBloat_DirMap_none hfd]
        cases hme : findDir b.DirMap k with
        | some j => rw [findDir_append_of_some _ hme]
        | none =>
            rw [findDir_append_of_none _ hme]
            simp only [findDir]
            rw [if_neg (fun hh => hk hh.symm)]
    | some i =>
        unfold totalBytes
        rw [AddBloat_DirMap_some hfd, findDir_update_other _ hk]

theorem totalBytes_foldl (s : Int) (k : GoString) :
    ∀ l : List GoString, l.Nodup → ∀ b : Bloat,
      totalBytes (l.foldl (fun a d => AddBloat a d s) b) k
        = totalBytes b k + (if k ∈ l then s else 0) := by
  intro l
  induction l with
  | nil => intro _ b; simp
  | cons d t ih =>
      intro hnd b
      rw [List.foldl_cons, ih (List.nodup_cons.mp hnd).2 (AddBloat b d s), totalBytes_AddBloat]
      by_cases hk : k = d
      · subst hk
        have hkt : k ∉ t := (List.nodup_cons.mp hnd).1
        rw [if_pos rfl, if_neg hkt, if_pos (List.mem_cons_self k t)]
        omega
      · simp [hk, List.mem_cons]

theorem totalBytes_AddFile (b : Bloat) (p : GoString) (s : Int) (k : GoString) :
    totalBytes (AddFile b p s) k
      = totalBytes b k + (if k ∈ ancestorChain p then s else 0) := by
  rw [addFile_eq_fold]
  exact totalBytes_foldl s k _ (chain_nodup p) b

/-- Claim C1: one call of AddFile raises the total of every ancestor
directory of the path (the distinct values obtained by iterating the
parent function from the path up to the fixed point, which is exactly
ancestorChain) by exactly the file size, and leaves the total of every
key that is not such an ancestor unchanged. -/
theorem addFile_ancestor_sum (b : Bloat) (p : GoString) (s : Int) (k : GoString) :
    (k ∈ ancestorChain p → totalBytes (AddFile b p s) k = totalBytes b k + s) ∧
    (k ∉ ancestorChain p → totalBytes (AddFile b p s) k = totalBytes b k) := by
  constructor
  · intro hk; rw [totalBytes_AddFile, if_pos hk]
  · intro hk; rw [totalBytes_AddFile, if_neg hk]; omega

theorem chain_ab : ancestorChain ['a', '/', 'b'] = [['a'], ['.']] := by
  rw [ancestorChain_ne (by decide), (by decide : Dir ['a', '/', 'b'] = ['a']),
      ancestorChain_ne (by decide), (by decide : Dir ['a'] = ['.']),
      ancestorChain_fix (by decide)]

/-- Witness for claim C1 at the path "a/b" with size 5: the ancestor "a"
gains 5, the unrelated key "z" is untouched. -/
theorem addFile_ancestor_sum_witness :
    (['a'] ∈ ancestorChain ['a', '/', 'b'] ∧
      totalBytes (AddFile (NewBloat false) ['a', '/', 'b'] 5) ['a']
        = totalBytes (NewBloat false) ['a'] + 5) ∧
    (['z'] ∉ ancestorChain ['a', '/', 'b'] ∧
      totalBytes (AddFile (NewBloat false) ['a', '/', 'b'] 5) ['z']
        = totalBytes (NewBloat false) ['z']) := by
  have hmem : ['a'] ∈ ancestorChain ['a', '/', 'b'] := by rw [chain_ab]; decide
  have hnot : ['z'] ∉ ancestorChain ['a', '/', 'b'] := by rw [chain_ab]; decide
  exact ⟨⟨hmem, (addFile_ancestor_sum (NewBloat false) ['a', '/', 'b'] 5 ['a']).1 hmem⟩,
    ⟨hnot, (addFile_ancestor_sum (NewBloat false) ['a', '/', 'b'] 5 ['z']).2 hnot⟩⟩

theorem addFile_of_fixed {p : GoString} (h : Dir p = p) (b : Bloat) (s : Int) :
    AddFile b p s = b :=
  addFileLoop_fix h b s

theorem addFile_of_parent_fixed {p : GoString} (h1 : Dir p ≠ p) (h2 : Dir (Dir p) = Dir p)
    (b : Bloat) (s : Int) : AddFile b p s = AddBloat b (Dir p) s := by
  unfold AddFile
  rw [addFileLoop_ne h1, addFileLoop_fix h2]

/-- Counterexample to claim C3 as stated: for the path "/" (which is
itself a fixed point of the parent function) AddFile contributes
nothing at all, not once: the loop computes the parent, sees it equal
to the current value and breaks before any AddBloat, so the accumulator
is unchanged and the total recorded for "/" stays 0, not 5. -/
theorem addFile_at_fixed_point_counterexample :
    Dir ['/'] = ['/'] ∧ AddFile (NewBloat false) ['/'] 5 = NewBloat false ∧
      totalBytes (AddFile (NewBloat false) ['/'] 5) ['/'] = 0 := by
  refine ⟨by decide, addFile_of_fixed (by decide) _ _, ?_⟩
  rw [addFile_of_fixed (by decide)]
  decide

/-- Claim C3 (amended): calling AddFile on a path that is itself a fixed
point of the parent function changes nothing and terminates at once;
calling it on a path that sits directly at the fixed point (its parent
is the fixed point) adds the size to the fixed point exactly once, on
the first iteration, and then terminates. -/
theorem addFile_fixed_point_behavior (b : Bloat) (p : GoString) (s : Int) :
    (Dir p = p → AddFile b p s = b) ∧
    (Dir p ≠ p → Dir (Dir p) = Dir p → AddFile b p s = AddBloat b (Dir p) s) :=
  ⟨fun h => addFile_of_fixed h b s, fun h1 h2 => addFile_of_parent_fixed h1 h2 b s⟩

/-- Witness for the amended claim C3 at the fixed point "/" and at the
root-level file "f". -/
theorem addFile_fixed_point_behavior_witness :
    AddFile (NewBloat false) ['/'] 5 = NewBloat false ∧
      AddFile (NewBloat false) ['f'] 5 = AddBloat (NewBloat false) ['.'] 5 := by
  constructor
  · exact (addFile_fixed_point_behavior (NewBloat false) ['/'] 5).1 (by decide)
  · have h := (addFile_fixed_point_behavior (NewBloat false) ['f'] 5).2 (by decide) (by decide)
    rw [(by decide : Dir ['f'] = ['.'])] at h
    exact h

theorem mem_insertDesc {x z : DirInfo} :
    ∀ l : List DirInfo, z ∈ insertDesc x l ↔ z = x ∨ z ∈ l := by
  intro l
  induction l with
  | nil => simp [insertDesc]
  | cons y t ih =>
      by_cases h : y.Bytes < x.Bytes
      · simp only [insertDesc, if_pos h, List.mem_cons]
      · simp only [insertDesc, if_neg h, List.mem_cons, ih]
        tauto

theorem insertDesc_pairwise {x : DirInfo} :
    ∀ {l : List DirInfo}, l.Pairwise (fun a c => c.Bytes ≤ a.Bytes) →
      (insertDesc x l).Pairwise (fun a c => c.Bytes ≤ a.Bytes) := by
  intro l
  induction l with
  | nil => intro _; simp [insertDesc]
  | cons y t ih =>
      intro hp
      rcases List.pairwise_cons.mp hp with ⟨hy, ht⟩
      by_cases h : y.Bytes < x.Bytes
      · simp only [insertDesc, if_pos h]
        refine List.pairwise_cons.mpr ⟨?_, hp⟩
        intro z hz
        rcases List.mem_cons.mp hz with h1 | h1
        · rw [h1]; exact le_of_lt h
        · exact le_trans (hy z h1) (le_of_lt h)
      · simp only [insertDesc, if_neg h]
        refine List.pairwise_cons.mpr ⟨?_, ih ht⟩
        intro z hz
        rcases (mem_insertDesc t).mp hz with h1 | h1
        · rw [h1]; exact le_of_not_lt h
        · exact hy z h1

theorem sortDescBy_pairwise :
    ∀ l : List DirInfo, (sortDescBy l).Pairwise (fun a c => c.Bytes ≤ a.Bytes) := by
  intro l
  induction l with
  | nil => simp [sortDescBy]
  | cons x t ih =>
      simp only [sortDescBy]
      exact insertDesc_pairwise ih

/-- Claim C5: after Sort, every adjacent pair of the ordered directory
sequence is in descending totalBytes order. -/
theorem sortBloat_sorted_descending (b : Bloat) :
    List.Chain' (fun a c : DirInfo => c.Bytes ≤ a.Bytes) (sortBloat b).Dirs :=
  (sortDescBy_pairwise (b.DirMap.map Prod.snd)).chain'

theorem chain_length_aux :
    ∀ n, ∀ p : GoString, p.length ≤ n → (ancestorChain p).length ≤ numComponents p := by
  intro n
  induction n with
  | zero =>
      intro p hp
      have hp0 : p = [] := List.length_eq_zero.mp (Nat.le_zero.mp hp)
      subst hp0
      rw [ancestorChain_ne (by decide), (by decide : Dir ([] : GoString) = ['.']),
        ancestorChain_fix (by decide)]
      decide
  | succ n ih =>
      intro p hp
      by_cases hs : '/' ∈ p
      · obtain ⟨u, v, rfl, hv⟩ := exists_splitLast hs
        by_cases hu : u = []
        · subst hu
          rw [List.nil_append] at hp ⊢
          have hd : Dir ('/' :: v) = ['/'] := by
            have h0 := Dir_splitLast [] v hv
            rw [if_pos rfl] at h0
            simpa using h0
          by_cases hfix : ('/' :: v : GoString) = ['/']
          · rw [hfix, ancestorChain_fix (by decide)]
            simp [numComponents]
          · have hne : Dir ('/' :: v) ≠ '/' :: v := by
              rw [hd]; exact fun hh => hfix hh.symm
            rw [ancestorChain_ne hne, hd, ancestorChain_fix (by decide)]
            simp [numComponents]
        · have hd : Dir (u ++ '/' :: v) = u := by rw [Dir_splitLast u v hv, if_neg hu]
          have hne : Dir (u ++ '/' :: v) ≠ u ++ '/' :: v := by
            rw [hd]
            intro hh
            have hlen := congrArg List.length hh
            simp at hlen
          rw [ancestorChain_ne hne, hd]
          have hul : u.length ≤ n := by
            rw [List.length_append, List.length_cons] at hp
            omega
          have hcount : (u ++ '/' :: v).count '/' = u.count '/' + v.count '/' + 1 := by
            rw [List.count_append, List.count_cons]
            simp
            omega
          have hv0 : v.count '/' = 0 := List.count_eq_zero.mpr hv
          have hiu := ih u hul
          simp only [List.length_cons, numComponents] at *
          omega
      · have hd : Dir p = ['.'] := Dir_no_sep hs
        by_cases hfix : p = ['.']
        · rw [hfix, ancestorChain_fix (by decide)]
          simp [numComponents]
        · have hne : Dir p ≠ p := by rw [hd]; exact fun hh => hfix hh.symm
          rw [ancestorChain_ne hne, hd, ancestorChain_fix (by decide)]
          simp [numComponents]

/-- Claim C6: AddFile terminates on every path (addFileLoop and
ancestorChain are total functions, their recursion descending along the
pmeasure of the path, with the equality of parent and current directory
as the only stopping condition); the number of contributing loop steps
is bounded by the number of path components of the input; and a
root-level path (one whose parent is already the fixed point) causes
exactly one contribution. -/
theorem addFile_terminates_bounded (b : Bloat) (p : GoString) (s : Int) :
    AddFile b p s = (ancestorChain p).foldl (fun a d => AddBloat a d s) b ∧
    addFileSteps p ≤ numComponents p ∧
    (Dir p ≠ p → Dir (Dir p) = Dir p → ancestorChain p = [Dir p]) := by
  refine ⟨addFile_eq_fold b p s, chain_length_aux p.length p le_rfl, ?_⟩
  intro h1 h2
  rw [ancestorChain_ne h1, ancestorChain_fix h2]

/-- Witness for claim C6 at the root-level path "f" with size 3. -/
theorem addFile_terminates_bounded_witness :
    AddFile (NewBloat false) ['f'] 3
        = (ancestorChain ['f']).foldl (fun a d => AddBloat a d 3) (NewBloat false) ∧
    addFileSteps ['f'] ≤ numComponents ['f'] ∧
    ancestorChain ['f'] = [Dir ['f']] := by
  obtain ⟨h1, h2, h3⟩ := addFile_terminates_bounded (NewBloat false) ['f'] 3
  exact ⟨h1, h2, h3 (by decide) (by decide)⟩

theorem AddBloat_eq_of_none {b : Bloat} {d : GoString} {s : Int}
    (h : findDir b.DirMap d = none) :
    AddBloat b d s = { b with DirMap := b.DirMap ++ [(d, { Path := d, Bytes := s })] } := by
  unfold AddBloat; rw [h]

theorem AddBloat_eq_of_some {b : Bloat} {d : GoString} {s : Int} {i : DirInfo}
    (h : findDir b.DirMap d = some i) :
    AddBloat b d s
      = { b with DirMap := updateAssoc b.DirMap d { Path := i.Path, Bytes := i.Bytes + s } } := by
  unfold AddBloat; rw [h]

theorem updateAssoc_append_last {m : List (GoString × DirInfo)} {k : GoString}
    (h : findDir m k = none) (x y : DirInfo) :
    updateAssoc (m ++ [(k, x)]) k y = m ++ [(k, y)] := by
  induction m with
  | nil => simp [updateAssoc]
  | cons e t ih =>
      by_cases he : e.1 = k
      · simp [findDir, he] at h
      · simp only [findDir, if_neg he] at h
        simp only [List.cons_append, updateAssoc, if_neg he, List.append_eq]
        rw [ih h]

/-- Claim C7: AddBloat on an unseen key behaves like creating a
zero-initialized record and then adding: with the key absent, one
AddBloat of v equals AddBloat of 0 followed by AddBloat of v. -/
theorem addBloat_unseen_zero_init (b : Bloat) (k : GoString) (v : Int)
    (h : findDir b.DirMap k = none) :
    AddBloat b k v = AddBloat (AddBloat b k 0) k v := by
  have hm1 : (AddBloat b k 0).DirMap = b.DirMap ++ [(k, { Path := k, Bytes := (0 : Int) })] :=
    AddBloat_DirMap_none h
  have h1 : findDir (AddBloat b k 0).DirMap k = some { Path := k, Bytes := (0 : Int) } := by
    rw [hm1, findDir_append_of_none _ h]
    simp [findDir]
  have hD : (AddBloat (AddBloat b k 0) k v).DirMap
      = b.DirMap ++ [(k, { Path := k, Bytes := v })] := by
    rw [AddBloat_DirMap_some h1, hm1, updateAssoc_append_last h]
    simp
  have hDirs : (AddBloat (AddBloat b k 0) k v).Dirs = b.Dirs := by
    rw [AddBloat_Dirs, AddBloat_Dirs]
  have hAbs : (AddBloat (AddBloat b k 0) k v).Abs = b.Abs := by
    rw [AddBloat_Abs, AddBloat_Abs]
  have heta : AddBloat (AddBloat b k 0) k v
      = { DirMap := (AddBloat (AddBloat b k 0) k v).DirMap,
          Dirs := (AddBloat (AddBloat b k 0) k v).Dirs,
          Abs := (AddBloat (AddBloat b k 0) k v).Abs } := rfl
  rw [AddBloat_eq_of_none h, heta, hD, hDirs, hAbs]

/-- Witness for claim C7 on the empty accumulator with key "x". -/
theorem addBloat_unseen_zero_init_witness :
    AddBloat (NewBloat false) ['x'] 10
      = AddBloat (AddBloat (NewBloat false) ['x'] 0) ['x'] 10 :=
  addBloat_unseen_zero_init (NewBloat false) ['x'] 10 (by decide)

theorem findDir_mem {m : List (GoString × DirInfo)} {d : GoString} {i : DirInfo}
    (h : findDir m d = some i) : (d, i) ∈ m := by
  induction m with
  | nil => simp [findDir] at h
  | cons e t ih =>
      by_cases he : e.1 = d
      · simp only [findDir, if_pos he] at h
        have h2 : i = e.2 := (Option.some.injEq _ _).mp h.symm
        have h3 : (d, i) = e := by
          rw [← he, h2]
        rw [h3]
        exact List.mem_cons_self e t
      · simp only [findDir, if_neg he] at h
        exact List.mem_cons_of_mem _ (ih h)

theorem updateAssoc_mem {m : List (GoString × DirInfo)} {d : GoString} {v : DirInfo}
    {x : GoString × DirInfo} (h : x ∈ updateAssoc m d v) : x = (d, v) ∨ x ∈ m := by
  induction m with
  | nil => simp [updateAssoc] at h
  | cons e t ih =>
      by_cases he : e.1 = d
      · simp only [updateAssoc, if_pos he] at h
        rcases List.mem_cons.mp h with h1 | h1
        · exact Or.inl h1
        · exact Or.inr (List.mem_cons_of_mem _ h1)
      · simp only [updateAssoc, if_neg he] at h
        rcases List.mem_cons.mp h with h1 | h1
        · exact Or.inr (h1 ▸ List.mem_cons_self e t)
        · rcases ih h1 with h2 | h2
          · exact Or.inl h2
          · exact Or.inr (List.mem_cons_of_mem _ h2)

theorem mapInv_AddBloat {b : Bloat} (hb : MapInv b) (d : GoString) (s : Int) :
    MapInv (AddBloat b d s) := by
  intro e he
  cases hfd : findDir b.DirMap d with
  | none =>
      rw [AddBloat_DirMap_none hfd] at he
      rcases List.mem_append.mp he with h1 | h1
      · exact hb e h1
      · have h2 : e = (d, { Path := d, Bytes := s }) := by simpa using h1
        rw [h2]
  | some i =>
      rw [AddBloat_DirMap_some hfd] at he
      rcases updateAssoc_mem he with h1 | h1
      · rw [h1]
        exact hb (d, i) (findDir_mem hfd)
      · exact hb e h1

theorem mapInv_foldl {s : Int} :
    ∀ l : List GoString, ∀ b : Bloat, MapInv b →
      MapInv (l.foldl (fun a d => AddBloat a d s) b) := by
  intro l
  induction l with
  | nil => intro b hb; exact hb
  | cons d t ih =>
      intro b hb
      rw [List.foldl_cons]
      exact ih _ (mapInv_AddBloat hb d s)

theorem mapInv_AddFile {b : Bloat} (hb : MapInv b) (p : GoString) (s : Int) :
    MapInv (AddFile b p s) := by
  rw [addFile_eq_fold]
  exact mapInv_foldl _ b hb

/-- Claim C10: every stored record has its Path field equal to its key;
this holds for the fresh accumulator and is preserved by AddBloat,
AddFile and Sort. -/
theorem dirmap_path_key_invariant (m : Bool) (b : Bloat) (d p : GoString) (s : Int) :
    MapInv (NewBloat m) ∧
    (MapInv b → MapInv (AddBloat b d s)) ∧
    (MapInv b → MapInv (AddFile b p s)) ∧
    (MapInv b → MapInv (sortBloat b)) := by
  refine ⟨?_, fun hb => mapInv_AddBloat hb d s, fun hb => mapInv_AddFile hb p s,
    fun hb => hb⟩
  intro e he
  exact absurd he (List.not_mem_nil e)

/-- Witness for claim C10 on the fresh accumulator and one AddBloat. -/
theorem dirmap_path_key_invariant_witness :
    MapInv (NewBloat false) ∧ MapInv (AddBloat (NewBloat false) ['x'] 4) := by
  obtain ⟨h0, h1, _, _⟩ := dirmap_path_key_invariant false (NewBloat false) ['x'] ['x'] 4
  exact ⟨h0, h1 h0⟩

/-- Claim C2 (exhibiting the defect): a scan whose traversal visits one
DIRECTORY entry (isDir = true) with reported size 7 and resolved key
"d" ends with the parent key "." holding a total of 7. The Walk
callback (main.go line 85) calls AddFile with the reported size of
every visited entry without checking IsDir, so a directory entry with a
nonzero reported size does flow into ancestor totals, contrary to the
claim that only regular files contribute. -/
theorem scan_adds_directory_size :
    (WalkEntry.mk ['r', '/', 'd'] 7 true (ResolveResult.ok ['d'])).isDir = true ∧
    Scan (NewBloat false) ['r']
        [WalkStep.entry (WalkEntry.mk ['r', '/', 'd'] 7 true (ResolveResult.ok ['d']))]
      = ScanOutcome.done
          { DirMap := [(['.'], { Path := ['.'], Bytes := 7 })], Dirs := [], Abs := false }
          [] := by
  refine ⟨rfl, ?_⟩
  show scanGo (NewBloat false) ['r']
      [WalkStep.entry (WalkEntry.mk ['r', '/', 'd'] 7 true (ResolveResult.ok ['d']))] [] = _
  simp only [scanGo]
  rw [addFile_of_parent_fixed (by decide) (by decide),
    (by decide : Dir ['d'] = ['.'])]
  decide

theorem scanGo_resolution_failure : ∀ pre : List WalkStep,
    (∀ st ∈ pre, okEntryStep st = true) →
    ∀ (b : Bloat) (root : GoString) (e : WalkEntry) (m : GoString) (rest : List WalkStep)
      (errs : List ErrMsg), e.resolved = ResolveResult.error m →
      scanGo b root (pre ++ WalkStep.entry e :: rest) errs
        = ScanOutcome.panicked (errs ++ [ErrMsg.cantProcess e.path m]) := by
  intro pre
  induction pre with
  | nil =>
      intro _ b root e m rest errs he
      rw [List.nil_append]
      simp only [scanGo]
      rw [he]
  | cons s0 t ih =>
      intro hpre b root e m rest errs he
      have h0 : okEntryStep s0 = true := hpre s0 (List.mem_cons_self s0 t)
      cases s0 with
      | failure msg => simp [okEntryStep] at h0
      | entry e0 =>
          cases hres : e0.resolved with
          | error mm => simp [okEntryStep, hres] at h0
          | ok fdir =>
              rw [List.cons_append]
              simp only [scanGo]
              rw [hres]
              exact ih (fun st hst => hpre st (List.mem_cons_of_mem _ hst))
                _ root e m rest errs he

/-- Claim C8: when path resolution fails for a visited entry (after any
prefix of successfully resolved entries), that entry is not skipped:
the cantProcess message is emitted for it and the scan outcome is a
panic, and a run containing such a root aborts with no report. -/
theorem resolution_failure_aborts (b : Bloat) (root : GoString) (pre : List WalkStep)
    (e : WalkEntry) (m : GoString) (rest : List WalkStep) (errs : List ErrMsg)
    (hpre : ∀ st ∈ pre, okEntryStep st = true) (he : e.resolved = ResolveResult.error m) :
    scanGo b root (pre ++ WalkStep.entry e :: rest) errs
        = ScanOutcome.panicked (errs ++ [ErrMsg.cantProcess e.path m]) ∧
    mainGo [(root, pre ++ WalkStep.entry e :: rest)]
        = MainOutcome.panicked [ErrMsg.cantProcess e.path m] := by
  constructor
  · exact scanGo_resolution_failure pre hpre b root e m rest errs he
  · simp only [mainGo, runRoots]
    rw [scanGo_resolution_failure pre hpre _ root e m rest [] he]
    rfl

/-- Witness for claim C8: a single entry whose resolution fails. -/
theorem resolution_failure_aborts_witness :
    scanGo (NewBloat false) ['r']
        [WalkStep.entry (WalkEntry.mk ['p'] 3 false (ResolveResult.error ['x']))] []
        = ScanOutcome.panicked [ErrMsg.cantProcess ['p'] ['x']] ∧
    mainGo [(['r'], [WalkStep.entry (WalkEntry.mk ['p'] 3 false (ResolveResult.error ['x']))])]
        = MainOutcome.panicked [ErrMsg.cantProcess ['p'] ['x']] :=
  resolution_failure_aborts (NewBloat false) ['r'] []
    (WalkEntry.mk ['p'] 3 false (ResolveResult.error ['x'])) ['x'] [] []
    (fun st hst => absurd hst (List.not_mem_nil st)) rfl

theorem scanOkEntries_entry_ok {e : WalkEntry} {fdir : GoString}
    (hres : e.resolved = ResolveResult.ok fdir) (b : Bloat) (t : List WalkStep) :
    scanOkEntries b (WalkStep.entry e :: t) = scanOkEntries (AddFile b fdir e.size) t := by
  show scanOkEntries
      (match e.resolved with
        | ResolveResult.ok f => AddFile b f e.size
        | ResolveResult.error _ => b) t
    = scanOkEntries (AddFile b fdir e.size) t
  rw [hres]

theorem scanGo_consumes_ok_entries : ∀ pre : List WalkStep,
    (∀ st ∈ pre, okEntryStep st = true) →
    ∀ (b : Bloat) (root : GoString) (rest : List WalkStep) (errs : List ErrMsg),
      scanGo b root (pre ++ rest) errs = scanGo (scanOkEntries b pre) root rest errs := by
  intro pre
  induction pre with
  | nil => intro _ b root rest errs; rfl
  | cons s0 t ih =>
      intro hpre b root rest errs
      have h0 : okEntryStep s0 = true := hpre s0 (List.mem_cons_self s0 t)
      cases s0 with
      | failure msg => simp [okEntryStep] at h0
      | entry e0 =>
          cases hres : e0.resolved with
          | error mm => simp [okEntryStep, hres] at h0
          | ok fdir =>
              rw [List.cons_append]
              simp only [scanGo]
              rw [hres, scanOkEntries_entry_ok hres b t]
              exact ih (fun st hst => hpre st (List.mem_cons_of_mem _ hst)) _ root rest errs

theorem scanGo_safe_done : ∀ steps : List WalkStep, stepsSafe steps = true →
    ∀ (b : Bloat) (root : GoString) (errs : List ErrMsg),
      ∃ b2 es2, scanGo b root steps errs = ScanOutcome.done b2 es2 := by
  intro steps
  induction steps with
  | nil => intro _ b root errs; exact ⟨b, errs, rfl⟩
  | cons s0 t ih =>
      intro hs b root errs
      cases s0 with
      | failure msg =>
          exact ⟨b, errs ++ [ErrMsg.errorScanning root msg], rfl⟩
      | entry e0 =>
          cases hres : e0.resolved with
          | error mm =>
              simp only [stepsSafe] at hs
              rw [hres] at hs
              cases hs
          | ok fdir =>
              simp only [stepsSafe] at hs
              rw [hres] at hs
              have := ih hs (AddFile b fdir e0.size) root errs
              simpa only [scanGo, hres] using this

theorem runRoots_safe : ∀ roots : List (GoString × List WalkStep),
    (∀ r ∈ roots, stepsSafe r.2 = true) →
    ∀ (b : Bloat) (errs : List ErrMsg),
      ∃ b2 es2, runRoots b roots errs = ScanOutcome.done b2 es2 := by
  intro roots
  induction roots with
  | nil => intro _ b errs; exact ⟨b, errs, rfl⟩
  | cons r t ih =>
      intro hroots b errs
      obtain ⟨b2, es2, h2⟩ := scanGo_safe_done r.2 (hroots r (List.mem_cons_self r t)) b r.1 errs
      obtain ⟨b3, es3, h3⟩ := ih (fun x hx => hroots x (List.mem_cons_of_mem _ hx)) b2 es2
      refine ⟨b3, es3, ?_⟩
      have hr : r = (r.1, r.2) := rfl
      rw [hr]
      simp only [runRoots]
      rw [h2]
      exact h3

/-- Claim C9: a traversal error after a prefix of good entries makes the
scan of that root stop there, report errorScanning with the root and
the detail, and hand back everything accumulated from the prefix; a run
whose roots are all free of resolution failures still ends in a report,
whatever traversal errors occurred. -/
theorem walk_error_abandons_root_continues (b : Bloat) (root : GoString)
    (pre : List WalkStep) (m : GoString) (rest : List WalkStep) (errs : List ErrMsg)
    (roots : List (GoString × List WalkStep))
    (hpre : ∀ st ∈ pre, okEntryStep st = true)
    (hroots : ∀ r ∈ roots, stepsSafe r.2 = true) :
    scanGo b root (pre ++ WalkStep.failure m :: rest) errs
        = ScanOutcome.done (scanOkEntries b pre) (errs ++ [ErrMsg.errorScanning root m]) ∧
    ∃ ds es, mainGo roots = MainOutcome.report ds es := by
  constructor
  · rw [scanGo_consumes_ok_entries pre hpre]
    simp only [scanGo]
  · obtain ⟨b2, es2, h2⟩ := runRoots_safe roots hroots (NewBloat (decide (1 < roots.length))) []
    refine ⟨(sortBloat b2).Dirs, es2, ?_⟩
    simp only [mainGo]
    rw [h2]

/-- Witness for claim C9: a first root that fails mid-walk, a second
clean root; the run still reports. -/
theorem walk_error_abandons_root_continues_witness :
    scanGo (NewBloat false) ['r'] [WalkStep.failure ['w']] []
        = ScanOutcome.done (scanOkEntries (NewBloat false) []) [ErrMsg.errorScanning ['r'] ['w']] ∧
    ∃ ds es,
      mainGo [(['r'], [WalkStep.failure ['w']]),
              (['q'], [WalkStep.entry (WalkEntry.mk ['f'] 2 false (ResolveResult.ok ['f']))])]
        = MainOutcome.report ds es :=
  walk_error_abandons_root_continues (NewBloat false) ['r'] [] ['w'] [] []
    [(['r'], [WalkStep.failure ['w']]),
     (['q'], [WalkStep.entry (WalkEntry.mk ['f'] 2 false (ResolveResult.ok ['f']))])]
    (fun st hst => absurd hst (List.not_mem_nil st)) (by decide)

theorem firstComp_append (u v : GoString) : firstComp (u ++ '/' :: v) = firstComp u := by
  induction u with
  | nil => simp [firstComp]
  | cons c t ih =>
      by_cases hc : c = '/'
      · simp [firstComp, hc]
      · simp only [List.cons_append, firstComp, if_neg hc, List.append_eq]
        rw [ih]

theorem firstComp_of_not_sep {p : GoString} (h : '/' ∉ p) : firstComp p = p := by
  induction p with
  | nil => rfl
  | cons c t ih =>
      have hc : ¬ c = '/' := fun hc => h (by simp [hc])
      simp only [firstComp, if_neg hc]
      rw [ih (fun ht => h (List.mem_cons_of_mem _ ht))]

theorem relOK_ne_dot {k : GoString} (h : relOK k) : k ≠ ['.'] := by
  intro hk
  exact h.2.2 (by rw [hk]; decide)

theorem relOK_of_split {u v : GoString} (hrel : relOK (u ++ '/' :: v)) (hu : u ≠ []) :
    relOK u := by
  obtain ⟨h1, h2, h3⟩ := hrel
  refine ⟨hu, ?_, ?_⟩
  · cases u with
    | nil => exact absurd rfl hu
    | cons c t => simpa using h2
  · rw [firstComp_append] at h3
    exact h3

theorem split_head_ne_nil {u v : GoString} (hrel : relOK (u ++ '/' :: v)) : u ≠ [] := by
  intro hu
  subst hu
  exact hrel.2.1 (by simp)

theorem pmeasure_of_ne_dot {x : GoString} (h : x ≠ ['.']) : pmeasure x = x.length + 1 := by
  simp [pmeasure, h]

theorem chain_under_root :
    ∀ n, ∀ p : GoString, p.length ≤ n → ∀ R : GoString, R ≠ [] → relOK p →
      ancestorChain (R ++ '/' :: p)
        = (ancestorChain p).map (phiKey R) ++ ancestorChain R := by
  intro n
  induction n with
  | zero =>
      intro p hp R hR hrel
      have hp0 : p = [] := List.length_eq_zero.mp (Nat.le_zero.mp hp)
      exact absurd hp0 hrel.1
  | succ n ih =>
      intro p hp R hR hrel
      by_cases hs : '/' ∈ p
      · obtain ⟨u, v, rfl, hv⟩ := exists_splitLast hs
        have hu : u ≠ [] := split_head_ne_nil hrel
        have hrelu : relOK u := relOK_of_split hrel hu
        have hdp : Dir (u ++ '/' :: v) = u := by rw [Dir_splitLast u v hv, if_neg hu]
        have hlen : u.length < (u ++ '/' :: v).length := by
          rw [List.length_append, List.length_cons]
          omega
        have hnep : Dir (u ++ '/' :: v) ≠ u ++ '/' :: v := by
          rw [hdp]
          intro hh
          have h5 := congrArg List.length hh
          simp only [List.length_append, List.length_cons] at h5
          omega
        have hassoc : R ++ '/' :: (u ++ '/' :: v) = (R ++ '/' :: u) ++ '/' :: v := by
          simp
        have hRu : (R ++ '/' :: u : GoString) ≠ [] := by simp
        have hdP : Dir (R ++ '/' :: (u ++ '/' :: v)) = R ++ '/' :: u := by
          rw [hassoc, Dir_splitLast _ v hv, if_neg hRu]
        have hneP : Dir (R ++ '/' :: (u ++ '/' :: v)) ≠ R ++ '/' :: (u ++ '/' :: v) := by
          rw [hdP]
          intro hh
          have h5 := congrArg List.length hh
          simp only [List.length_append, List.length_cons] at h5
          omega
        rw [ancestorChain_ne hneP, hdP, ancestorChain_ne hnep, hdp, List.map_cons]
        have hphi : phiKey R u = R ++ '/' :: u := by
          rw [phiKey, if_neg (relOK_ne_dot hrelu)]
        rw [hphi, List.cons_append]
        rw [ih u (by omega) R hR hrelu]
      · have hpd : p ≠ ['.'] := by
          intro he
          exact hrel.2.2 (by rw [firstComp_of_not_sep hs, he])
        have hdp : Dir p = ['.'] := Dir_no_sep hs
        have hnep : Dir p ≠ p := by rw [hdp]; exact fun hh => hpd hh.symm
        have hdP : Dir (R ++ '/' :: p) = R := by
          rw [Dir_splitLast R p hs, if_neg hR]
        have hneP : Dir (R ++ '/' :: p) ≠ R ++ '/' :: p := by
          rw [hdP]
          intro hh
          have h5 := congrArg List.length hh
          simp only [List.length_append, List.length_cons] at h5
          omega
        have hphid : phiKey R ['.'] = R := by simp [phiKey]
        rw [ancestorChain_ne hneP, hdP, ancestorChain_ne hnep, hdp,
          @ancestorChain_fix ['.'] (by decide), List.map_cons, List.map_nil,
          hphid, List.cons_append, List.nil_append]

theorem chain_goodKey :
    ∀ n, ∀ p : GoString, p.length ≤ n → relOK p →
      ∀ d ∈ ancestorChain p, goodKey d := by
  intro n
  induction n with
  | zero =>
      intro p hp hrel
      have hp0 : p = [] := List.length_eq_zero.mp (Nat.le_zero.mp hp)
      exact absurd hp0 hrel.1
  | succ n ih =>
      intro p hp hrel d hd
      by_cases hs : '/' ∈ p
      · obtain ⟨u, v, rfl, hv⟩ := exists_splitLast hs
        have hu : u ≠ [] := split_head_ne_nil hrel
        have hrelu : relOK u := relOK_of_split hrel hu
        have hdp : Dir (u ++ '/' :: v) = u := by rw [Dir_splitLast u v hv, if_neg hu]
        have hlen : u.length < (u ++ '/' :: v).length := by
          rw [List.length_append, List.length_cons]
          omega
        have hnep : Dir (u ++ '/' :: v) ≠ u ++ '/' :: v := by
          rw [hdp]
          intro hh
          have h5 := congrArg List.length hh
          simp only [List.length_append, List.length_cons] at h5
          omega
        rw [ancestorChain_ne hnep, hdp] at hd
        rcases List.mem_cons.mp hd with h1 | h1
        · exact Or.inl (h1 ▸ hrelu)
        · exact ih u (by omega) hrelu d h1
      · have hpd : p ≠ ['.'] := by
          intro he
          exact hrel.2.2 (by rw [firstComp_of_not_sep hs, he])
        have hdp : Dir p = ['.'] := Dir_no_sep hs
        have hnep : Dir p ≠ p := by rw [hdp]; exact fun hh => hpd hh.symm
        rw [ancestorChain_ne hnep, hdp, @ancestorChain_fix ['.'] (by decide)] at hd
        rcases List.mem_cons.mp hd with h1 | h1
        · exact Or.inr h1
        · cases h1

theorem phiKey_inj {R a c : GoString} (h : phiKey R a = phiKey R c) : a = c := by
  unfold phiKey at h
  by_cases h1 : a = ['.'] <;> by_cases h2 : c = ['.']
  · rw [h1, h2]
  · rw [if_pos h1, if_neg h2] at h
    have hlen := congrArg List.length h
    simp only [List.length_append, List.length_cons] at hlen
    omega
  · rw [if_neg h1, if_pos h2] at h
    have hlen := congrArg List.length h
    simp only [List.length_append, List.length_cons] at hlen
    omega
  · rw [if_neg h1, if_neg h2] at h
    exact (by simpa using List.append_cancel_left h : a = c)

theorem phiKey_not_mem_chainR {R k : GoString} (hk : goodKey k) :
    phiKey R k ∉ ancestorChain R := by
  intro hmem
  have hpm := chain_pmeasure hmem
  by_cases h1 : k = ['.']
  · rw [phiKey, if_pos h1] at hpm
    exact absurd hpm (lt_irrefl _)
  · have hkrel : relOK k := hk.resolve_right h1
    have hkne : k ≠ [] := hkrel.1
    have hklen : 1 ≤ k.length := by
      cases k with
      | nil => exact absurd rfl hkne
      | cons a t => simp
    rw [phiKey, if_neg h1] at hpm
    have hfull : (R ++ '/' :: k : GoString) ≠ ['.'] := by
      intro hh
      have h5 := congrArg List.length hh
      simp only [List.length_append, List.length_cons, List.length_nil] at h5
      omega
    rw [pmeasure_of_ne_dot hfull] at hpm
    have hb : pmeasure R ≤ R.length + 1 := by
      by_cases hr : R = ['.']
      · simp [pmeasure, hr]
      · simp [pmeasure, hr]
    simp only [List.length_append, List.length_cons] at hpm
    omega

theorem totals_step {R : GoString} (hR : R ≠ []) {f : GoString} (hf : relOK f)
    {k : GoString} (hk : goodKey k) (b1 b2 : Bloat) (s : Int)
    (hb : totalBytes b1 k = totalBytes b2 (phiKey R k)) :
    totalBytes (AddFile b1 f s) k = totalBytes (AddFile b2 (R ++ '/' :: f) s) (phiKey R k) := by
  rw [totalBytes_AddFile, totalBytes_AddFile, hb,
    chain_under_root f.length f le_rfl R hR hf]
  have hiff : k ∈ ancestorChain f
      ↔ phiKey R k ∈ (ancestorChain f).map (phiKey R) ++ ancestorChain R := by
    rw [List.mem_append]
    constructor
    · intro h1
      exact Or.inl (List.mem_map.mpr ⟨k, h1, rfl⟩)
    · rintro (h1 | h1)
      · obtain ⟨d, hd, hde⟩ := List.mem_map.mp h1
        have hdk : d = k := phiKey_inj hde
        exact hdk ▸ hd
      · exact absurd h1 (phiKey_not_mem_chainR hk)
  congr 1
  exact if_congr hiff rfl rfl

theorem scan_totals_aux {R : GoString} (hR : R ≠ []) :
    ∀ files : List (GoString × Int), (∀ f ∈ files, relOK f.1) →
    ∀ b1 b2 : Bloat, (∀ k, goodKey k → totalBytes b1 k = totalBytes b2 (phiKey R k)) →
    ∀ k, goodKey k →
      totalBytes (scanFilesRel b1 files) k
        = totalBytes (scanFilesAbs b2 R files) (phiKey R k) := by
  intro files
  induction files with
  | nil => intro _ b1 b2 hb k hk; exact hb k hk
  | cons f t ih =>
      intro hfiles b1 b2 hb k hk
      show totalBytes (scanFilesRel (AddFile b1 f.1 f.2) t) k
        = totalBytes (scanFilesAbs (AddFile b2 (R ++ '/' :: f.1) f.2) R t) (phiKey R k)
      refine ih (fun x hx => hfiles x (List.mem_cons_of_mem _ hx))
        (AddFile b1 f.1 f.2) (AddFile b2 (R ++ '/' :: f.1) f.2) ?_ k hk
      intro k2 hk2
      exact totals_step hR (hfiles f (List.mem_cons_self f t)) hk2 b1 b2 f.2 (hb k2 hk2)

/-- Claim C4 (amended): for any nonempty root and any set of files given
by well-formed root-relative paths, the relative-mode run and the
absolute-mode run assign the same total to every corresponding
directory key at or below the root ("." corresponds to the root itself
and a relative key k to root ++ "/" ++ k); the absolute run then
additionally records the ancestors of the root above it, which is the
only further difference (see the counterexample). -/
theorem rel_abs_totals_agree (R : GoString) (files : List (GoString × Int)) (k : GoString)
    (hR : R ≠ []) (hfiles : ∀ f ∈ files, relOK f.1) (hk : goodKey k) :
    totalBytes (scanFilesRel (NewBloat false) files) k
      = totalBytes (scanFilesAbs (NewBloat true) R files) (phiKey R k) :=
  scan_totals_aux hR files hfiles (NewBloat false) (NewBloat true) (fun _ _ => rfl) k hk

/-- Witness for the amended claim C4: root "/a", one file "b/f" of size
7, compared at the key "b". -/
theorem rel_abs_totals_agree_witness :
    (['/', 'a'] : GoString) ≠ [] ∧
    (∀ f ∈ [((['b', '/', 'f'] : GoString), (7 : Int))], relOK f.1) ∧
    goodKey ['b'] ∧
    totalBytes (scanFilesRel (NewBloat false) [(['b', '/', 'f'], 7)]) ['b']
      = totalBytes (scanFilesAbs (NewBloat true) ['/', 'a'] [(['b', '/', 'f'], 7)])
          (phiKey ['/', 'a'] ['b']) :=
  ⟨by decide, by decide, by decide,
    rel_abs_totals_agree ['/', 'a'] [(['b', '/', 'f'], 7)] ['b']
      (by decide) (by decide) (by decide)⟩

theorem chain_abs_af : ancestorChain ['/', 'a', '/', 'f'] = [['/', 'a'], ['/']] := by
  rw [ancestorChain_ne (by decide), (by decide : Dir ['/', 'a', '/', 'f'] = ['/', 'a']),
      ancestorChain_ne (by decide), (by decide : Dir ['/', 'a'] = ['/']),
      ancestorChain_fix (by decide)]

/-- Counterexample to claim C4 as stated: scanning the single file "f"
of size 100 under the root "/a", the relative-mode run produces one
record (key ".") while the absolute-mode run produces two (keys "/a"
and "/"): the absolute run also accumulates into the ancestors of the
root above it, so the two runs do not differ merely in the string
representation of their keys, and no renaming of keys alone maps one
result onto the other. -/
theorem rel_abs_counterexample :
    (scanFilesRel (NewBloat false) [(['f'], 100)]).DirMap
        = [(['.'], { Path := ['.'], Bytes := 100 })] ∧
    (scanFilesAbs (NewBloat true) ['/', 'a'] [(['f'], 100)]).DirMap
        = [(['/', 'a'], { Path := ['/', 'a'], Bytes := 100 }),
           (['/'], { Path := ['/'], Bytes := 100 })] ∧
    (scanFilesRel (NewBloat false) [(['f'], 100)]).DirMap.length
        ≠ (scanFilesAbs (NewBloat true) ['/', 'a'] [(['f'], 100)]).DirMap.length := by
  have h1 : scanFilesRel (NewBloat false) [(['f'], 100)]
      = AddFile (NewBloat false) ['f'] 100 := rfl
  have h2 : scanFilesAbs (NewBloat true) ['/', 'a'] [(['f'], 100)]
      = AddFile (NewBloat true) ['/', 'a', '/', 'f'] 100 := rfl
  have ha : (scanFilesRel (NewBloat false) [(['f'], 100)]).DirMap
      = [(['.'], { Path := ['.'], Bytes := 100 })] := by
    rw [h1, addFile_of_parent_fixed (by decide) (by decide),
      (by decide : Dir ['f'] = ['.'])]
    decide
  have hb : (scanFilesAbs (NewBloat true) ['/', 'a'] [(['f'], 100)]).DirMap
      = [(['/', 'a'], { Path := ['/', 'a'], Bytes := 100 }),
         (['/'], { Path := ['/'], Bytes := 100 })] := by
    rw [h2, addFile_eq_fold, chain_abs_af]
    decide
  refine ⟨ha, hb, ?_⟩
  rw [ha, hb]
  decide
